import Mathlib

/-!
Verification development for the `movement` filtering and NaN-reporting module.

The repository ships `movement/utils/reports.py` (modelled here from its source)
and the unit tests for `movement/filtering.py`.  The filtering module itself is
not part of the source tree, so its operations are modelled from the
specification document (each such definition carries a doc comment starting
with `Modelled from the spec:`).

Conventions of the shallow embedding:
* a labelled 1-D time series is a `TSeries`: a list of time coordinates
  (rationals) plus a list of optional rationals, where `none` plays the role
  of NaN;
* a position array with a space axis is a `PosArray`: per time sample, a list
  of spatial components;
* fallible operations return `Except FilterError _`;
* machine floats are idealised as `ℚ`.
-/

/-- Errors raised by the filtering operations (Python `ValueError`s).  The
constructors carry the offending value where the error message names it. -/
inductive FilterError where
  | invalidStatistic (s : String)
  | invalidMethod (m : String)
  | missingFillValue
  | axisOverride
deriving DecidableEq, Repr

/-- A labelled 1-D time series: monotone time coordinates and data values,
with `none` standing for NaN. -/
structure TSeries where
  time : List ℚ
  vals : List (Option ℚ)
deriving DecidableEq, Repr

/-- A position array: time coordinates plus, per time sample, the list of
spatial components of the tracked point (`none` = NaN). -/
structure PosArray where
  time : List ℚ
  pts : List (List (Option ℚ))
deriving DecidableEq, Repr

/-- A deprecation warning, modelled structurally: its Python category and the
names of the deprecated function and of its replacement. -/
structure DeprecationNotice where
  category : String
  deprecatedName : String
  replacement : String
deriving DecidableEq, Repr

/-- `vals` of an `Except`-wrapped series, with `[]` for the error case. -/
def exceptVals (e : Except FilterError TSeries) : List (Option ℚ) :=
  match e with
  | .ok r => r.vals
  | .error _ => []

/-- `true` iff the computation succeeded. -/
def exceptOk (e : Except FilterError TSeries) : Bool :=
  match e with
  | .ok _ => true
  | .error _ => false

/-- Number of `true` positions of the boolean mask `a` below `n`. -/
def maskCount (n : ℕ) (a : ℕ → Bool) : ℕ :=
  ((Finset.range n).filter (fun i => a i = true)).card

/-- Positions below `n` that start a maximal run of consecutive `true`s. -/
def maskStarts (n : ℕ) (a : ℕ → Bool) : Finset ℕ :=
  (Finset.range n).filter (fun i => a i = true ∧ (i = 0 ∨ a (i - 1) = false))

/-- Number of maximal runs of consecutive `true`s of the mask `a` below `n`. -/
def maskRuns (n : ℕ) (a : ℕ → Bool) : ℕ := (maskStarts n a).card

/-- The NaN mask of a value list: position `i` is masked iff the value is
missing. -/
def nanMask (xs : List (Option ℚ)) : ℕ → Bool := fun i => (xs.getD i none).isNone

/-- Number of NaN (i.e. `none`) entries of a value list. -/
def countNone (xs : List (Option ℚ)) : ℕ := maskCount xs.length (nanMask xs)

/-- Number of maximal runs of consecutive NaN entries of a value list. -/
def nanRuns (xs : List (Option ℚ)) : ℕ := maskRuns xs.length (nanMask xs)

/-!  ## NaN reporting (`movement/utils/reports.py`, present in the source tree)

`calculate_nan_stats` receives an `xarray.DataArray` whose dimensions may
include `individuals`, `keypoints`, `space` and `time`.  We model such an
array by its axis structure plus a NaN indicator function.
-/

/-- A labelled data array as consumed by `calculate_nan_stats`: the optional
`individuals` and `keypoints` axes carry coordinate labels, `hasSpace` tells
whether a `space` axis of size `nSpace` exists, `nTime` is the length of the
`time` axis, and `isnan ind kp t s` tells whether the value at that index
tuple is NaN (the `ind`/`kp`/`s` indices are ignored by callers when the
corresponding axis is absent). -/
structure NanDataArray where
  individuals : Option (List String)
  keypoints : Option (List String)
  hasSpace : Bool
  nSpace : ℕ
  nTime : ℕ
  isnan : ℕ → ℕ → ℕ → ℕ → Bool

/-- Result of `calculate_nan_stats`: the pieces interpolated into the returned
report line `"\n\t\t{label}: {n_nans}/{n_points} ({percent_nans}%)"`. -/
structure NanStatsResult where
  label : String
  nNans : ℕ
  nPoints : ℕ
  percent : ℚ
deriving DecidableEq, Repr

/-- Python's `round` to the nearest integer, halves to the even neighbour,
idealised over `ℚ`. -/
def roundHalfEven (q : ℚ) : ℤ :=
  let f : ℤ := ⌊q⌋
  let r : ℚ := q - f
  if r < 1 / 2 then f
  else if 1 / 2 < r then f + 1
  else if f % 2 = 0 then f else f + 1

/-- Python's `round(q, 1)`: rounding to one decimal place. -/
def pyRound1 (q : ℚ) : ℚ := (roundHalfEven (10 * q) : ℚ) / 10

/-- Indices selected along an optional axis: the index of the requested label
if one was passed and the axis exists (mirroring
`if individual is not None and "individuals" in data.dims`), all indices of
the axis if it exists but no label was passed, and the single implicit index
`0` when the axis is absent. -/
def selIndices (axis : Option (List String)) (label : Option String) : List ℕ :=
  match axis, label with
  | some names, some nm => [names.indexOf nm]
  | some names, none => List.range names.length
  | none, _ => [0]

/-- Whether the point of `data` at individual `i`, keypoint `k`, time `t` is
missing: if a `space` axis exists, the point is NaN when any of its spatial
coordinates is NaN (`data.isnull().any("space")`), else its own value is
checked. -/
def pointIsNan (data : NanDataArray) (i k t : ℕ) : Bool :=
  if data.hasSpace then (List.range data.nSpace).any (fun s => data.isnan i k t s)
  else data.isnan i k t 0

/-- Model of `calculate_nan_stats(data, keypoint, individual)` from
`movement/utils/reports.py`: selects the requested keypoint/individual when
the axis exists, counts NaN points over all remaining dimensions
(`null_mask.sum().item()`), takes `n_points = data.time.size`, computes
`round((n_nans / n_points) * 100, 1)` guarded against a zero denominator, and
builds the label with precedence explicit keypoint (when the `keypoints` axis
exists and the argument is truthy) over `"all_keypoints"` (keypoints axis
present) over `"data"`. -/
def calculate_nan_stats (data : NanDataArray)
    (keypoint individual : Option String) : NanStatsResult :=
  let indSel := selIndices data.individuals individual
  let kpSel := selIndices data.keypoints keypoint
  let nNans :=
    (indSel.map (fun i =>
      (kpSel.map (fun k =>
        (List.range data.nTime).countP (fun t => pointIsNan data i k t))).sum)).sum
  let nPoints := data.nTime
  let percent : ℚ :=
    if nPoints ≠ 0 then pyRound1 ((nNans : ℚ) / (nPoints : ℚ) * 100) else 0
  let label :=
    match data.keypoints, keypoint with
    | some _, some nm => if nm = "" then "all_keypoints" else nm
    | some _, none => "all_keypoints"
    | none, _ => "data"
  ⟨label, nNans, nPoints, percent⟩

/-!  ## Filtering operations (`movement/filtering.py`, absent from the source
tree; modelled from the specification and constrained by the unit tests under
`src/tests/test_unit/test_filtering.py`). -/

/-- Mean of a list of rationals (`0` for the empty list). -/
def statMean (vs : List ℚ) : ℚ := vs.sum / vs.length

/-- Median of a list of rationals: middle element of the sorted list, or the
average of the two middle elements for even length (`0` for the empty list). -/
def statMedian (vs : List ℚ) : ℚ :=
  let s := List.insertionSort (· ≤ ·) vs
  let k := s.length
  if k % 2 = 1 then s.getD (k / 2) 0
  else (s.getD (k / 2 - 1) 0 + s.getD (k / 2) 0) / 2

/-- Maximum of a list of rationals (`0` for the empty list). -/
def statMax (vs : List ℚ) : ℚ :=
  match vs with
  | [] => 0
  | x :: t => t.foldl max x

/-- Minimum of a list of rationals (`0` for the empty list). -/
def statMin (vs : List ℚ) : ℚ :=
  match vs with
  | [] => 0
  | x :: t => t.foldl min x

/-- Dispatch of the rolling aggregate on the `statistic` name (callers have
already validated the name). -/
def applyStat (statistic : String) (vs : List ℚ) : ℚ :=
  if statistic = "mean" then statMean vs
  else if statistic = "median" then statMedian vs
  else if statistic = "max" then statMax vs
  else statMin vs

/-- Index into the original series corresponding to index `q` of the series
padded with `hw` replicated boundary samples on each side (`pad(time=hw,
mode="edge")`): positions `q < hw` map to the first sample, interior
positions shift by `hw`, and right-pad positions map to the last sample. -/
def clampIdx (n hw q : ℕ) : ℕ :=
  if q < hw then 0
  else if q < hw + n then q - hw
  else n - 1

/-- Original indices examined by the centred window of size `w` whose output
lands at position `i`: positions `i, i+1, …, i+w-1` of the padded series,
mapped back through the edge clamping. -/
def windowIdxs (n w i : ℕ) : List ℕ :=
  (List.range w).map (fun d => clampIdx n (w / 2) (i + d))

/-- Values (with `none` = NaN) seen by the window of `rolling_filter` at
output position `i`. -/
def windowVals (xs : List (Option ℚ)) (w i : ℕ) : List (Option ℚ) :=
  (windowIdxs xs.length w i).map (fun j => xs.getD j none)

/-- Modelled from the spec: the value computation of `rolling_filter`
(`movement/filtering.py` is not under `src/`).  A centred rolling aggregate of
size `window` along time, computed after padding each edge with `window / 2`
replicated boundary samples (the tests require that a NaN-free series stays
NaN-free, which forces some edge padding, and the spec states none beyond
that); a window emits the aggregate of its non-NaN values
when at least `min_periods` of them exist and NaN otherwise, `min_periods`
defaulting to `window` (strict: any NaN nulls the whole window). -/
def rolling_filter_core (xs : List (Option ℚ)) (window : ℕ) (statistic : String)
    (min_periods : Option ℕ) : List (Option ℚ) :=
  let mp := min_periods.getD window
  (List.range xs.length).map (fun i =>
    let valid := (windowVals xs window i).filterMap id
    if mp ≤ valid.length then some (applyStat statistic valid) else none)

/-- The statistics accepted by `rolling_filter`. -/
def validStatistics : List String := ["mean", "median", "max", "min"]

/-- Modelled from the spec: `rolling_filter(data, window, statistic,
min_periods, print_report)` (`movement/filtering.py` is not under `src/`).
Validates the statistic name — an unsupported value fails with an
invalid-argument error naming the offending value — and otherwise applies the
centred rolling aggregate along time, preserving the time coordinates.  The
`print_report` flag only triggers logging and does not affect the result. -/
def rolling_filter (ts : TSeries) (window : ℕ) (statistic : String)
    (min_periods : Option ℕ) (print_report : Bool) : Except FilterError TSeries :=
  if statistic ∈ validStatistics then
    .ok ⟨ts.time, rolling_filter_core ts.vals window statistic min_periods⟩
  else .error (.invalidStatistic statistic)

/-- Modelled from the spec: `median_filter(data, window, min_periods,
print_report)` (`movement/filtering.py` is not under `src/`).  Deprecated
alias: emits a deprecation warning identifying `rolling_filter` as the
replacement and forwards unconditionally to
`rolling_filter(..., statistic="median")`. -/
def median_filter (ts : TSeries) (window : ℕ) (min_periods : Option ℕ)
    (print_report : Bool) : DeprecationNotice × Except FilterError TSeries :=
  (⟨"DeprecationWarning", "median_filter", "rolling_filter"⟩,
   rolling_filter ts window "median" min_periods print_report)

/-- Evaluation of a polynomial given by its coefficient list (constant term
first) at `x`, by Horner's rule. -/
def polyEval (cs : List ℚ) (x : ℚ) : ℚ := cs.foldr (fun c acc => c + x * acc) 0

/-- One elimination step of Gaussian elimination: subtract the multiple of the
pivot row that cancels the leading entry of `row`, and drop that entry. -/
def elimFirst (piv row : List ℚ) : List ℚ :=
  match piv, row with
  | p0 :: ptl, r0 :: rtl => rtl.zipWith (fun rv pv => rv - r0 / p0 * pv) ptl
  | _, row => row

/-- Gaussian elimination with back-substitution on augmented rows
(`coefficients ++ [right-hand side]`), with an explicit recursion bound. -/
def gaussAux (fuel : ℕ) (rows : List (List ℚ)) : Option (List ℚ) :=
  match fuel with
  | 0 => some []
  | fuel + 1 =>
    match rows.find? (fun r => decide (r.headD 0 ≠ 0)) with
    | none => none
    | some piv =>
      match gaussAux fuel ((rows.erase piv).map (elimFirst piv)) with
      | none => none
      | some xs =>
        match piv with
        | p0 :: ptl =>
          let rhs := ptl.getLastD 0
          let coeffs := ptl.dropLast
          some (((rhs - (coeffs.zipWith (· * ·) xs).sum) / p0) :: xs)
        | [] => none

/-- Solve the `m × m` linear system `M x = b`. -/
def gaussSolve (m : ℕ) (M : List (List ℚ)) (b : List ℚ) : Option (List ℚ) :=
  gaussAux m ((M.zip b).map (fun rb => rb.1 ++ [rb.2]))

/-- Least-squares polynomial fit of degree `p` to the points
`(0, ys₀), (1, ys₁), …`, via the normal equations; returns the coefficient
list (constant term first, length `p + 1`). -/
def polyfit (ys : List ℚ) (p : ℕ) : List ℚ :=
  let m := p + 1
  let xs : List ℚ := (List.range ys.length).map (fun d => (d : ℚ))
  let M := (List.range m).map (fun r =>
    (List.range m).map (fun c => ((xs.map (fun x => x ^ (r + c))).sum)))
  let bv := (List.range m).map (fun r =>
    ((xs.zipWith (fun x y => x ^ r * y) ys).sum))
  (gaussSolve m M bv).getD (List.replicate m 0)

/-- Smoothed value of the Savitzky–Golay filter: the least-squares polynomial
of order `polyorder` (capped at the window length minus one) fitted to the
window values, evaluated at offset `pos` inside the window. -/
def savgolValue (ys : List ℚ) (polyorder pos : ℕ) : ℚ :=
  polyEval (polyfit ys (min polyorder (ys.length - 1))) (pos : ℚ)

/-- First index of the centred window of size `w` for output position `i`:
`i - (w-1)/2`, truncated at the start of the series. -/
def savgolLo (w i : ℕ) : ℕ := i - (w - 1) / 2

/-- Last index of the centred window of size `w` for output position `i` in a
series of length `n`: `i + w/2`, truncated at the end of the series. -/
def savgolHi (n w i : ℕ) : ℕ := min (i + w / 2) (n - 1)

/-- Modelled from the spec: the value computation of `savgol_filter`
(`movement/filtering.py` is not under `src/`; the numeric kernel is
`scipy.signal.savgol_filter`, external to the repository).  Per output
position, a polynomial of order `polyorder` is least-squares fitted to the
window of `window` samples centred there along time (truncated at the series
boundaries, the spec stating no further edge handling) and evaluated at that
position; any window touching a NaN yields NaN at that position (the
implementation's native NaN propagation). -/
def savgol_core (xs : List (Option ℚ)) (window polyorder : ℕ) : List (Option ℚ) :=
  (List.range xs.length).map (fun i =>
    let lo := savgolLo window i
    let hi := savgolHi xs.length window i
    let win := (List.range (hi + 1 - lo)).map (fun d => xs.getD (lo + d) none)
    if win.any (fun v => v.isNone) then none
    else some (savgolValue (win.filterMap id) polyorder (i - lo)))

/-- Modelled from the spec: `savgol_filter(data, window, polyorder, mode,
print_report, **kwargs)` (`movement/filtering.py` is not under `src/`).  The
time axis is forced internally; a caller-supplied `axis` keyword override
(modelled as `axisOverride`) fails with an invalid-argument error, since it
would break the per-series independence.  Otherwise the smoothing filter is
applied along time, preserving the time coordinates. -/
def savgol_filter (ts : TSeries) (window polyorder : ℕ) (mode : String)
    (axisOverride : Option ℤ) (print_report : Bool) : Except FilterError TSeries :=
  if axisOverride.isSome then .error .axisOverride
  else .ok ⟨ts.time, savgol_core ts.vals window polyorder⟩

/-- Time coordinate at index `i` (0 outside the coordinate list). -/
def timeAt (t : List ℚ) (i : ℕ) : ℚ := t.getD i 0

/-- Sampling step of the time coordinate, read off its first two entries
(defaulting to `1` for degenerate coordinates). -/
def timeStep (t : List ℚ) : ℚ :=
  if 2 ≤ t.length then timeAt t 1 - timeAt t 0 else 1

/-- Index of the closest valid (non-NaN) sample at or before `i`. -/
def prevSome (xs : List (Option ℚ)) : ℕ → Option ℕ
  | 0 => if (xs.getD 0 none).isSome then some 0 else none
  | i + 1 => if (xs.getD (i + 1) none).isSome then some (i + 1) else prevSome xs i

/-- Search upward (with an explicit bound) for the closest valid sample. -/
def nextSomeAux (xs : List (Option ℚ)) : ℕ → ℕ → Option ℕ
  | 0, _ => none
  | fuel + 1, i => if (xs.getD i none).isSome then some i else nextSomeAux xs fuel (i + 1)

/-- Index of the closest valid (non-NaN) sample at or after `i`. -/
def nextSome (xs : List (Option ℚ)) (i : ℕ) : Option ℕ :=
  nextSomeAux xs (xs.length - i) i

/-- Numeric value at index `j` (0 for NaN/out of range; used only at valid
indices). -/
def valAt (xs : List (Option ℚ)) (j : ℕ) : ℚ := (xs.getD j none).getD 0

/-- Whether `max_gap` allows filling the missing sample at index `i`:
`max_gap = none` always allows; otherwise the gap is measured in
time-coordinate units and compared against `(max_gap + 1)` sampling steps —
for an interior gap the span between its two enclosing valid samples, for a
boundary gap the distance to the single enclosing valid sample compared
against `max_gap` steps. -/
def fillAllowed (t : List ℚ) (xs : List (Option ℚ)) (max_gap : Option ℕ)
    (i : ℕ) : Bool :=
  match max_gap with
  | none => true
  | some g =>
    match prevSome xs i, nextSome xs i with
    | some p, some q => decide (timeAt t q - timeAt t p ≤ ((g : ℚ) + 1) * timeStep t)
    | some p, none => decide (timeAt t i - timeAt t p ≤ (g : ℚ) * timeStep t)
    | none, some q => decide (timeAt t q - timeAt t i ≤ (g : ℚ) * timeStep t)
    | none, none => false

/-- The other standard 1-D interpolation kinds that `interpolate_over_time`
delegates to the generic 1-D interpolation routine
(`xarray.DataArray.interpolate_na` handing off to `scipy.interpolate`). -/
def delegatedMethods : List String :=
  ["zero", "slinear", "quadratic", "cubic", "polynomial", "barycentric",
   "krogh", "pchip", "spline", "akima"]

/-- Modelled from the spec: the value supplied by the generic 1-D
interpolation routine for a delegated standard kind at a missing sample
enclosed by the valid samples `p` and `q` (`scipy.interpolate`, external to
the repository; the spec does not describe the kind-specific numerics and no
claim depends on them, so the model represents the value by the interpolant
of the enclosing valid pair). -/
def interp1dValue (t : List ℚ) (xs : List (Option ℚ)) (p q i : ℕ) : ℚ :=
  valAt xs p + (valAt xs q - valAt xs p) * (timeAt t i - timeAt t p) /
    (timeAt t q - timeAt t p)

/-- Modelled from the spec: the per-sample fill computation of
`interpolate_over_time` (`movement/filtering.py` is not under `src/`).  Valid
samples are kept; a missing sample is filled — subject to the `max_gap`
bound — by linear interpolation between, or nearest-neighbour copy of, its
enclosing valid samples, by forward/backward fill from the preceding/
following valid sample, by the constant `fill_value`, or, for the other
standard kinds, by the generic 1-D interpolation routine applied between the
enclosing valid samples; a missing sample whose required enclosing valid
samples do not exist stays NaN. -/
def interpCore (method : String) (t : List ℚ) (xs : List (Option ℚ))
    (max_gap : Option ℕ) (fill_value : Option ℚ) : List (Option ℚ) :=
  (List.range xs.length).map (fun i =>
    match xs.getD i none with
    | some v => some v
    | none =>
      if fillAllowed t xs max_gap i then
        if method = "linear" then
          match prevSome xs i, nextSome xs i with
          | some p, some q =>
            some (valAt xs p +
              (valAt xs q - valAt xs p) * (timeAt t i - timeAt t p) /
                (timeAt t q - timeAt t p))
          | _, _ => none
        else if method = "nearest" then
          match prevSome xs i, nextSome xs i with
          | some p, some q =>
            some (if timeAt t i - timeAt t p ≤ timeAt t q - timeAt t i then
              valAt xs p else valAt xs q)
          | _, _ => none
        else if method = "ffill" then
          match prevSome xs i with
          | some p => some (valAt xs p)
          | none => none
        else if method = "bfill" then
          match nextSome xs i with
          | some q => some (valAt xs q)
          | none => none
        else if method = "constant" then fill_value
        else
          match prevSome xs i, nextSome xs i with
          | some p, some q => some (interp1dValue t xs p q i)
          | _, _ => none
      else none)

/-- The interpolation methods accepted by `interpolate_over_time`: the five
named fills plus the standard kinds delegated to the generic 1-D
interpolation routine. -/
def validMethods : List String :=
  ["linear", "nearest", "ffill", "bfill", "constant"] ++ delegatedMethods

/-- Modelled from the spec: `interpolate_over_time(data, method, max_gap,
fill_value, print_report)` (`movement/filtering.py` is not under `src/`).
An unknown `method` fails with an invalid-argument error naming it;
`method="constant"` without a `fill_value` fails with an invalid-argument
error; otherwise NaN gaps are filled along time subject to `max_gap`,
preserving the time coordinates. -/
def interpolate_over_time (ts : TSeries) (method : String) (max_gap : Option ℕ)
    (fill_value : Option ℚ) (print_report : Bool) : Except FilterError TSeries :=
  if method ∉ validMethods then .error (.invalidMethod method)
  else if method = "constant" ∧ fill_value = none then .error .missingFillValue
  else .ok ⟨ts.time, interpCore method ts.time ts.vals max_gap fill_value⟩

/-- Modelled from the spec: `filter_by_confidence(position, confidence,
threshold, print_report)` (`movement/filtering.py` is not under `src/`).  For
every point whose confidence is strictly below `threshold` (the caller's
default is `0.6`), all spatial components of the point are set to NaN; points
at or above the threshold are returned unchanged. -/
def filter_by_confidence (position : PosArray) (confidence : List ℚ)
    (threshold : ℚ) (print_report : Bool) : PosArray :=
  ⟨position.time,
   (List.range position.pts.length).map (fun i =>
     let pt := position.pts.getD i []
     if confidence.getD i 0 < threshold then pt.map (fun _ => (none : Option ℚ))
     else pt)⟩

/-- Decidable equality of `Except` results, used to evaluate concrete
filter runs. -/
instance exceptDecEq {e a : Type} [DecidableEq e] [DecidableEq a] :
    DecidableEq (Except e a)
  | .ok x, .ok y =>
    if h : x = y then .isTrue (congrArg Except.ok h)
    else .isFalse (fun hc => h (Except.ok.inj hc))
  | .error x, .error y =>
    if h : x = y then .isTrue (congrArg Except.error h)
    else .isFalse (fun hc => h (Except.error.inj hc))
  | .ok _, .error _ => .isFalse (fun hc => Except.noConfusion hc)
  | .error _, .ok _ => .isFalse (fun hc => Except.noConfusion hc)

/-!  ## Run decomposition of boolean masks -/

/-- Start of the maximal run of consecutive `true`s containing `j` (meaningful
when `a j = true`). -/
def runStartOf (a : ℕ → Bool) : ℕ → ℕ
  | 0 => 0
  | j + 1 => if a j = true then runStartOf a j else j + 1

/-- Upward search for the end of the run starting at `j`, with explicit
fuel. -/
def runEndAux (a : ℕ → Bool) : ℕ → ℕ → ℕ
  | 0, j => j
  | fuel + 1, j => if a (j + 1) = true then runEndAux a fuel (j + 1) else j

/-- End of the maximal run of consecutive `true`s containing `j` inside
`[0, n)` (meaningful when `a j = true` and `j < n`). -/
def runEndOf (n : ℕ) (a : ℕ → Bool) (j : ℕ) : ℕ := runEndAux a (n - (j + 1)) j

theorem runStartOf_le (a : ℕ → Bool) : ∀ j, runStartOf a j ≤ j := by
  intro j
  induction j with
  | zero => exact Nat.le_refl 0
  | succ j ih =>
    simp only [runStartOf]
    split
    · omega
    · omega

theorem runStartOf_all (a : ℕ → Bool) :
    ∀ j, a j = true → ∀ i, runStartOf a j ≤ i → i ≤ j → a i = true := by
  intro j
  induction j with
  | zero =>
    intro hj i h1 h2
    have hi : i = 0 := by omega
    rw [hi]; exact hj
  | succ j ih =>
    intro hj i h1 h2
    by_cases haj : a j = true
    · simp only [runStartOf, if_pos haj] at h1
      rcases Nat.lt_or_ge i (j + 1) with h | h
      · exact ih haj i h1 (by omega)
      · have hi : i = j + 1 := by omega
        rw [hi]; exact hj
    · simp only [runStartOf, if_neg haj] at h1
      have hi : i = j + 1 := by omega
      rw [hi]; exact hj

theorem runStartOf_isStart (a : ℕ → Bool) :
    ∀ j, a j = true → runStartOf a j = 0 ∨ a (runStartOf a j - 1) = false := by
  intro j
  induction j with
  | zero => intro _; left; rfl
  | succ j ih =>
    intro hj
    by_cases haj : a j = true
    · simp only [runStartOf, if_pos haj]
      exact ih haj
    · simp only [runStartOf, if_neg haj]
      right
      simpa using Bool.eq_false_iff.mpr (fun h => haj h)

theorem runEndAux_ge (a : ℕ → Bool) : ∀ fuel j, j ≤ runEndAux a fuel j := by
  intro fuel
  induction fuel with
  | zero => intro j; exact Nat.le_refl j
  | succ fuel ih =>
    intro j
    simp only [runEndAux]
    split
    · exact Nat.le_trans (by omega) (ih (j + 1))
    · exact Nat.le_refl j

theorem runEndAux_le (a : ℕ → Bool) : ∀ fuel j, runEndAux a fuel j ≤ j + fuel := by
  intro fuel
  induction fuel with
  | zero => intro j; exact Nat.le_refl j
  | succ fuel ih =>
    intro j
    simp only [runEndAux]
    split
    · exact Nat.le_trans (ih (j + 1)) (by omega)
    · omega

theorem runEndAux_all (a : ℕ → Bool) :
    ∀ fuel j, a j = true → ∀ i, j ≤ i → i ≤ runEndAux a fuel j → a i = true := by
  intro fuel
  induction fuel with
  | zero =>
    intro j hj i h1 h2
    simp only [runEndAux] at h2
    have hi : i = j := by omega
    rw [hi]; exact hj
  | succ fuel ih =>
    intro j hj i h1 h2
    by_cases hnext : a (j + 1) = true
    · simp only [runEndAux, if_pos hnext] at h2
      rcases Nat.lt_or_ge i (j + 1) with h | h
      · have hi : i = j := by omega
        rw [hi]; exact hj
      · exact ih (j + 1) hnext i h h2
    · simp only [runEndAux, if_neg hnext] at h2
      have hi : i = j := by omega
      rw [hi]; exact hj

theorem runEndAux_reach (a : ℕ → Bool) :
    ∀ fuel j k, j ≤ k → k ≤ j + fuel →
      (∀ i, j ≤ i → i ≤ k → a i = true) → k ≤ runEndAux a fuel j := by
  intro fuel
  induction fuel with
  | zero =>
    intro j k h1 h2 _
    simp only [runEndAux]
    omega
  | succ fuel ih =>
    intro j k h1 h2 hall
    rcases Nat.eq_or_lt_of_le h1 with h | h
    · exact h ▸ runEndAux_ge a (fuel + 1) j
    · have hnext : a (j + 1) = true := hall (j + 1) (by omega) (by omega)
      simp only [runEndAux, if_pos hnext]
      exact ih (j + 1) k (by omega) (by omega) (fun i hi1 hi2 => hall i (by omega) hi2)

theorem runEndOf_ge (n : ℕ) (a : ℕ → Bool) (j : ℕ) : j ≤ runEndOf n a j :=
  runEndAux_ge a _ j

theorem runEndOf_lt (n : ℕ) (a : ℕ → Bool) (j : ℕ) (hj : j < n) :
    runEndOf n a j < n := by
  have := runEndAux_le a (n - (j + 1)) j
  unfold runEndOf
  omega

theorem runEndOf_all (n : ℕ) (a : ℕ → Bool) (j : ℕ) (hj : a j = true) :
    ∀ i, j ≤ i → i ≤ runEndOf n a j → a i = true :=
  runEndAux_all a _ j hj

theorem runEndOf_reach (n : ℕ) (a : ℕ → Bool) (j k : ℕ) (h1 : j ≤ k) (h2 : k < n)
    (hall : ∀ i, j ≤ i → i ≤ k → a i = true) : k ≤ runEndOf n a j :=
  runEndAux_reach a (n - (j + 1)) j k h1 (by omega) hall

/-- Counting lemma: if every `true` of `b` inside `[0, n)` is within `r`
positions to the left of (or `l` positions to the right of) some `true` of
`a`, and `b` contains `a` there, then `b` has at most `r + l` more `true`
positions than `a` per maximal run of `a`. -/
theorem maskCount_dilation (n l r : ℕ) (a b : ℕ → Bool)
    (hmono : ∀ i, i < n → a i = true → b i = true)
    (hdil : ∀ i, i < n → b i = true →
      ∃ j, j < n ∧ a j = true ∧ j ≤ i + r ∧ i ≤ j + l) :
    maskCount n b ≤ maskCount n a + (r + l) * maskRuns n a := by
  classical
  set A := (Finset.range n).filter (fun i => a i = true) with hA
  set B := (Finset.range n).filter (fun i => b i = true) with hB
  have hAB : A ⊆ B := by
    intro i hi
    rw [hA, Finset.mem_filter, Finset.mem_range] at hi
    rw [hB, Finset.mem_filter, Finset.mem_range]
    exact ⟨hi.1, hmono i hi.1 hi.2⟩
  have hcard : (B \ A).card + A.card = B.card := Finset.card_sdiff_add_card_eq_card hAB
  set f : ℕ → ℕ × ℕ := fun i =>
    if h : i < n ∧ b i = true then
      (fun j =>
        (runStartOf a j,
         if i < runStartOf a j then r - (runStartOf a j - i)
         else r + (i - runEndOf n a (runStartOf a j) - 1)))
        (Classical.choose (hdil i h.1 h.2))
    else (0, 0) with hf
  have spec : ∀ i ∈ B \ A, ∃ s,
      s ∈ maskStarts n a ∧ (f i).1 = s ∧
      ((i < s ∧ 1 ≤ s - i ∧ s - i ≤ r ∧ (f i).2 = r - (s - i)) ∨
       (runEndOf n a s < i ∧ i ≤ runEndOf n a s + l ∧
        (f i).2 = r + (i - runEndOf n a s - 1))) := by
    intro i hi
    rw [Finset.mem_sdiff, hB, Finset.mem_filter, Finset.mem_range] at hi
    have hin : i < n := hi.1.1
    have hbi : b i = true := hi.1.2
    have hai : a i = false := by
      rcases Bool.eq_false_or_eq_true (a i) with h | h
      · exact absurd (by rw [hA, Finset.mem_filter, Finset.mem_range]; exact ⟨hin, h⟩ :
          i ∈ A) hi.2
      · exact h
    have hcond : i < n ∧ b i = true := ⟨hin, hbi⟩
    have hfi : f i =
        (fun j =>
          (runStartOf a j,
           if i < runStartOf a j then r - (runStartOf a j - i)
           else r + (i - runEndOf n a (runStartOf a j) - 1)))
          (Classical.choose (hdil i hcond.1 hcond.2)) := by
      rw [hf]; exact dif_pos hcond
    set j := Classical.choose (hdil i hcond.1 hcond.2) with hjdef
    have hjspec := Classical.choose_spec (hdil i hcond.1 hcond.2)
    obtain ⟨hjn, hja, hjle, hjge⟩ := hjspec
    set s := runStartOf a j with hsdef
    have hs_le : s ≤ j := runStartOf_le a j
    have hsa : a s = true := runStartOf_all a j hja s (Nat.le_refl s) hs_le
    have hs_start : s = 0 ∨ a (s - 1) = false := runStartOf_isStart a j hja
    have hsn : s < n := by omega
    have hsS : s ∈ maskStarts n a := by
      rw [maskStarts, Finset.mem_filter, Finset.mem_range]
      exact ⟨hsn, hsa, hs_start⟩
    have hje : j ≤ runEndOf n a s :=
      runEndOf_reach n a s j hs_le hjn (fun x hx1 hx2 => runStartOf_all a j hja x hx1 (by omega))
    refine ⟨s, hsS, ?_, ?_⟩
    · rw [hfi]
    · by_cases hlt : i < s
      · left
        refine ⟨hlt, by omega, by omega, ?_⟩
        rw [hfi]
        simp only [if_pos hlt]
      · right
        have hie : runEndOf n a s < i := by
          rcases Nat.lt_or_ge (runEndOf n a s) i with h | h
          · exact h
          · exact absurd (runEndOf_all n a s hsa i (by omega) h) (by rw [hai]; exact Bool.false_ne_true)
        refine ⟨hie, by omega, ?_⟩
        rw [hfi]
        simp only [if_neg hlt]
    
  have hmaps : ∀ i ∈ B \ A, f i ∈ maskStarts n a ×ˢ Finset.range (r + l) := by
    intro i hi
    obtain ⟨s, hsS, hfst, hcases⟩ := spec i hi
    rw [Finset.mem_product, Finset.mem_range]
    constructor
    · rw [hfst]; exact hsS
    · rcases hcases with ⟨h1, h2, h3, h4⟩ | ⟨h1, h2, h3⟩
      · omega
      · omega
  have hinj : Set.InjOn f ↑(B \ A) := by
    intro i1 hi1 i2 hi2 heq
    rw [Finset.mem_coe] at hi1 hi2
    obtain ⟨s1, hs1, hf1, hc1⟩ := spec i1 hi1
    obtain ⟨s2, hs2, hf2, hc2⟩ := spec i2 hi2
    have hss : s1 = s2 := by rw [← hf1, ← hf2, heq]
    have hsnd : (f i1).2 = (f i2).2 := by rw [heq]
    rw [← hss] at hc2
    rcases hc1 with ⟨a1, b1, c1, d1⟩ | ⟨a1, b1, c1⟩ <;>
      rcases hc2 with ⟨a2, b2, c2, d2⟩ | ⟨a2, b2, c2⟩ <;> omega
  have key : (B \ A).card ≤ (maskStarts n a).card * (r + l) := by
    have h := Finset.card_le_card_of_injOn f hmaps hinj
    rwa [Finset.card_product, Finset.card_range] at h
  have hBc : maskCount n b = B.card := by rw [maskCount, hB]
  have hAc : maskCount n a = A.card := by rw [maskCount, hA]
  have hrw : (r + l) * maskRuns n a = (maskStarts n a).card * (r + l) := by
    rw [maskRuns]; ring
  rw [hBc, hAc, hrw]
  omega

/-!  ## NaN-mask characterisation of the two smoothing filters -/

theorem getD_map_range {α : Type} (f : ℕ → α) (n i : ℕ) (d : α) (h : i < n) :
    ((List.range n).map f).getD i d = f i := by
  simp [List.getD_eq_getElem?_getD, List.getElem?_map, List.getElem?_range, h]

theorem length_filterMap_id_add (l : List (Option ℚ)) :
    (l.filterMap id).length + l.countP (fun v => v.isNone) = l.length := by
  induction l with
  | nil => rfl
  | cons x t ih =>
    cases x with
    | none => simp [List.filterMap_cons, List.countP_cons, ← ih]; omega
    | some v => simp [List.filterMap_cons, List.countP_cons, ← ih]; omega

theorem maskCount_mono (n : ℕ) (a b : ℕ → Bool)
    (h : ∀ i, i < n → a i = true → b i = true) :
    maskCount n a ≤ maskCount n b := by
  apply Finset.card_le_card
  intro i hi
  rw [Finset.mem_filter, Finset.mem_range] at hi ⊢
  exact ⟨hi.1, h i hi.1 hi.2⟩

theorem windowVals_length (xs : List (Option ℚ)) (w i : ℕ) :
    (windowVals xs w i).length = w := by
  rw [windowVals, windowIdxs]
  simp

theorem rolling_mask (xs : List (Option ℚ)) (w : ℕ) (statistic : String) (i : ℕ)
    (hi : i < xs.length) :
    nanMask (rolling_filter_core xs w statistic none) i = true ↔
      ∃ d, d < w ∧ nanMask xs (clampIdx xs.length (w / 2) (i + d)) = true := by
  have hlen : (rolling_filter_core xs w statistic none).getD i none =
      (let valid := (windowVals xs w i).filterMap id
       if w ≤ valid.length then some (applyStat statistic valid) else none) := by
    rw [rolling_filter_core]
    exact getD_map_range _ _ _ _ hi
  rw [nanMask, hlen]
  simp only []
  constructor
  · intro h
    by_cases hle : w ≤ ((windowVals xs w i).filterMap id).length
    · rw [if_pos hle] at h
      exact absurd h (by simp)
    · have hcnt : 0 < (windowVals xs w i).countP (fun v => v.isNone) := by
        have := length_filterMap_id_add (windowVals xs w i)
        have hwl := windowVals_length xs w i
        omega
      rw [List.countP_pos_iff] at hcnt
      obtain ⟨v, hv, hvn⟩ := hcnt
      rw [windowVals, List.mem_map] at hv
      obtain ⟨j, hj, rfl⟩ := hv
      rw [windowIdxs, List.mem_map] at hj
      obtain ⟨d, hd, rfl⟩ := hj
      rw [List.mem_range] at hd
      exact ⟨d, hd, hvn⟩
  · intro ⟨d, hd, hnan⟩
    have hmem : xs.getD (clampIdx xs.length (w / 2) (i + d)) none ∈ windowVals xs w i := by
      rw [windowVals, windowIdxs]
      simp only [List.map_map, List.mem_map]
      exact ⟨d, by rw [List.mem_range]; exact hd, rfl⟩
    have hcnt : 0 < (windowVals xs w i).countP (fun v => v.isNone) := by
      rw [List.countP_pos_iff]
      exact ⟨_, hmem, hnan⟩
    have := length_filterMap_id_add (windowVals xs w i)
    have hwl := windowVals_length xs w i
    have hlt : ¬ w ≤ ((windowVals xs w i).filterMap id).length := by omega
    rw [if_neg hlt]
    rfl

theorem clampIdx_center (n w i : ℕ) (hi : i < n) :
    clampIdx n (w / 2) (i + w / 2) = i := by
  rw [clampIdx]
  split
  · omega
  · split
    · omega
    · omega

theorem clampIdx_bounds (n w i d : ℕ) (hw : 1 ≤ w) (hi : i < n) (hd : d < w) :
    clampIdx n (w / 2) (i + d) < n ∧
      clampIdx n (w / 2) (i + d) ≤ i + (w - 1 - w / 2) ∧
      i ≤ clampIdx n (w / 2) (i + d) + w / 2 := by
  rw [clampIdx]
  split
  · omega
  · split
    · omega
    · omega

theorem savgol_mask (xs : List (Option ℚ)) (w po i : ℕ) (hi : i < xs.length) :
    nanMask (savgol_core xs w po) i = true ↔
      ∃ d, d < savgolHi xs.length w i + 1 - savgolLo w i ∧
        nanMask xs (savgolLo w i + d) = true := by
  have hlen : (savgol_core xs w po).getD i none =
      (let lo := savgolLo w i
       let hi := savgolHi xs.length w i
       let win := (List.range (hi + 1 - lo)).map (fun d => xs.getD (lo + d) none)
       if win.any (fun v => v.isNone) then none
       else some (savgolValue (win.filterMap id) po (i - lo))) := by
    rw [savgol_core]
    exact getD_map_range _ _ _ _ hi
  rw [nanMask, hlen]
  simp only []
  constructor
  · intro h
    by_cases hany : ((List.range (savgolHi xs.length w i + 1 - savgolLo w i)).map
        (fun d => xs.getD (savgolLo w i + d) none)).any (fun v => v.isNone) = true
    · rw [List.any_eq_true] at hany
      obtain ⟨v, hv, hvn⟩ := hany
      rw [List.mem_map] at hv
      obtain ⟨d, hd, rfl⟩ := hv
      rw [List.mem_range] at hd
      exact ⟨d, hd, hvn⟩
    · rw [if_neg hany] at h
      exact absurd h (by simp)
  · intro ⟨d, hd, hnan⟩
    have hany : ((List.range (savgolHi xs.length w i + 1 - savgolLo w i)).map
        (fun d => xs.getD (savgolLo w i + d) none)).any (fun v => v.isNone) = true := by
      rw [List.any_eq_true]
      refine ⟨xs.getD (savgolLo w i + d) none, ?_, hnan⟩
      rw [List.mem_map]
      exact ⟨d, by rw [List.mem_range]; exact hd, rfl⟩
    rw [if_pos hany]
    rfl

theorem savgol_center (n w i : ℕ) (hi : i < n) :
    savgolLo w i ≤ i ∧ i ≤ savgolHi n w i := by
  rw [savgolLo, savgolHi]
  omega

theorem savgolWin_bounds (n w i d : ℕ) (hi : i < n)
    (hd : d < savgolHi n w i + 1 - savgolLo w i) :
    savgolLo w i + d < n ∧ savgolLo w i + d ≤ i + w / 2 ∧
      i ≤ savgolLo w i + d + (w - 1) / 2 := by
  rw [savgolLo, savgolHi] at *
  omega

theorem rolling_filter_core_length (xs : List (Option ℚ)) (w : ℕ) (s : String)
    (mp : Option ℕ) : (rolling_filter_core xs w s mp).length = xs.length := by
  rw [rolling_filter_core]; simp

theorem savgol_core_length (xs : List (Option ℚ)) (w po : ℕ) :
    (savgol_core xs w po).length = xs.length := by
  rw [savgol_core]; simp

theorem interpCore_length (method : String) (t : List ℚ) (xs : List (Option ℚ))
    (mg : Option ℕ) (fv : Option ℚ) :
    (interpCore method t xs mg fv).length = xs.length := by
  rw [interpCore]; simp

theorem rolling_filter_ok (ts : TSeries) (w : ℕ) (s : String) (mp : Option ℕ)
    (pr : Bool) (r : TSeries) (hr : rolling_filter ts w s mp pr = .ok r) :
    r.time = ts.time ∧ r.vals = rolling_filter_core ts.vals w s mp := by
  rw [rolling_filter] at hr
  split at hr
  · cases hr; exact ⟨rfl, rfl⟩
  · cases hr

theorem savgol_filter_ok (ts : TSeries) (w po : ℕ) (mode : String)
    (ax : Option ℤ) (pr : Bool) (r : TSeries)
    (hr : savgol_filter ts w po mode ax pr = .ok r) :
    r.time = ts.time ∧ r.vals = savgol_core ts.vals w po := by
  rw [savgol_filter] at hr
  split at hr
  · cases hr
  · cases hr; exact ⟨rfl, rfl⟩

theorem interpolate_over_time_ok (ts : TSeries) (method : String)
    (mg : Option ℕ) (fv : Option ℚ) (pr : Bool) (r : TSeries)
    (hr : interpolate_over_time ts method mg fv pr = .ok r) :
    r.time = ts.time ∧ r.vals = interpCore method ts.time ts.vals mg fv := by
  rw [interpolate_over_time] at hr
  split at hr
  · cases hr
  · split at hr
    · cases hr
    · cases hr; exact ⟨rfl, rfl⟩

theorem rolling_core_mono (xs : List (Option ℚ)) (w : ℕ) (s : String)
    (hw : 1 ≤ w) (i : ℕ) (hi : i < xs.length) (h : nanMask xs i = true) :
    nanMask (rolling_filter_core xs w s none) i = true := by
  rw [rolling_mask xs w s i hi]
  refine ⟨w / 2, by omega, ?_⟩
  rw [clampIdx_center xs.length w i hi]
  exact h

theorem rolling_core_dilation (xs : List (Option ℚ)) (w : ℕ) (s : String)
    (hw : 1 ≤ w) (i : ℕ) (hi : i < xs.length)
    (h : nanMask (rolling_filter_core xs w s none) i = true) :
    ∃ j, j < xs.length ∧ nanMask xs j = true ∧
      j ≤ i + (w - 1 - w / 2) ∧ i ≤ j + w / 2 := by
  rw [rolling_mask xs w s i hi] at h
  obtain ⟨d, hd, hnan⟩ := h
  obtain ⟨h1, h2, h3⟩ := clampIdx_bounds xs.length w i d hw hi hd
  exact ⟨clampIdx xs.length (w / 2) (i + d), h1, hnan, h2, h3⟩

theorem savgol_core_mono (xs : List (Option ℚ)) (w po : ℕ)
    (i : ℕ) (hi : i < xs.length) (h : nanMask xs i = true) :
    nanMask (savgol_core xs w po) i = true := by
  rw [savgol_mask xs w po i hi]
  obtain ⟨h1, h2⟩ := savgol_center xs.length w i hi
  refine ⟨i - savgolLo w i, by omega, ?_⟩
  have heq : savgolLo w i + (i - savgolLo w i) = i := by omega
  rw [heq]
  exact h

theorem savgol_core_dilation (xs : List (Option ℚ)) (w po : ℕ)
    (i : ℕ) (hi : i < xs.length)
    (h : nanMask (savgol_core xs w po) i = true) :
    ∃ j, j < xs.length ∧ nanMask xs j = true ∧
      j ≤ i + w / 2 ∧ i ≤ j + (w - 1) / 2 := by
  rw [savgol_mask xs w po i hi] at h
  obtain ⟨d, hd, hnan⟩ := h
  obtain ⟨h1, h2, h3⟩ := savgolWin_bounds xs.length w i d hi hd
  exact ⟨savgolLo w i + d, h1, hnan, h2, h3⟩

/-- C2: for every input series and window length (at least `1`),
`rolling_filter` (at its default strict `min_periods`) and `savgol_filter`
never produce fewer NaNs than the input contains, and the increase in the NaN
count is at most `(window - 1)` multiplied by the number of consecutive-NaN
runs in the input. -/
theorem C2_nan_bounds (t : List ℚ) (xs : List (Option ℚ)) (w po : ℕ) (s : String)
    (r rs : TSeries) (hw : 1 ≤ w)
    (hr : rolling_filter ⟨t, xs⟩ w s none false = .ok r)
    (hrs : savgol_filter ⟨t, xs⟩ w po "interp" none false = .ok rs) :
    countNone xs ≤ countNone r.vals ∧
    countNone xs ≤ countNone rs.vals ∧
    countNone r.vals ≤ countNone xs + (w - 1) * nanRuns xs ∧
    countNone rs.vals ≤ countNone xs + (w - 1) * nanRuns xs := by
  obtain ⟨-, hv⟩ := rolling_filter_ok _ _ _ _ _ _ hr
  obtain ⟨-, hvs⟩ := savgol_filter_ok _ _ _ _ _ _ _ hrs
  rw [hv, hvs]
  have hcr : countNone (rolling_filter_core xs w s none) =
      maskCount xs.length (nanMask (rolling_filter_core xs w s none)) := by
    rw [countNone, rolling_filter_core_length]
  have hcs : countNone (savgol_core xs w po) =
      maskCount xs.length (nanMask (savgol_core xs w po)) := by
    rw [countNone, savgol_core_length]
  have hmono_r : countNone xs ≤ countNone (rolling_filter_core xs w s none) := by
    rw [hcr, countNone]
    exact maskCount_mono _ _ _ (fun i hi h => rolling_core_mono xs w s hw i hi h)
  have hmono_s : countNone xs ≤ countNone (savgol_core xs w po) := by
    rw [hcs, countNone]
    exact maskCount_mono _ _ _ (fun i hi h => savgol_core_mono xs w po i hi h)
  have hdil_r : countNone (rolling_filter_core xs w s none) ≤
      countNone xs + (w - 1) * nanRuns xs := by
    rw [hcr, countNone, nanRuns]
    have h := maskCount_dilation xs.length (w / 2) (w - 1 - w / 2) (nanMask xs) _
      (fun i hi h => rolling_core_mono xs w s hw i hi h)
      (fun i hi h => rolling_core_dilation xs w s hw i hi h)
    have he : w - 1 - w / 2 + w / 2 = w - 1 := by omega
    rwa [he] at h
  have hdil_s : countNone (savgol_core xs w po) ≤
      countNone xs + (w - 1) * nanRuns xs := by
    rw [hcs, countNone, nanRuns]
    have h := maskCount_dilation xs.length ((w - 1) / 2) (w / 2) (nanMask xs) _
      (fun i hi h => savgol_core_mono xs w po i hi h)
      (fun i hi h => savgol_core_dilation xs w po i hi h)
    have he : w / 2 + (w - 1) / 2 = w - 1 := by omega
    rwa [he] at h
  exact ⟨hmono_r, hmono_s, hdil_r, hdil_s⟩

/-- C2 witness: the NaN-count bounds instantiated on the series `[1, NaN, 1]`
with window `3`. -/
theorem C2_witness :
    countNone [some (1 : ℚ), none, some 1] ≤ countNone [none, none, none] ∧
    countNone [some (1 : ℚ), none, some 1] ≤ countNone [none, none, none] ∧
    countNone [(none : Option ℚ), none, none] ≤
      countNone [some (1 : ℚ), none, some 1] +
        (3 - 1) * nanRuns [some (1 : ℚ), none, some 1] ∧
    countNone [(none : Option ℚ), none, none] ≤
      countNone [some (1 : ℚ), none, some 1] +
        (3 - 1) * nanRuns [some (1 : ℚ), none, some 1] := by
  exact C2_nan_bounds [0, 1, 2] [some 1, none, some 1] 3 1 "median"
    ⟨[0, 1, 2], [none, none, none]⟩ ⟨[0, 1, 2], [none, none, none]⟩ (by decide)
    (by
      rw [rolling_filter]
      simp [validStatistics, rolling_filter_core, windowVals, windowIdxs,
        clampIdx, applyStat, statMedian, List.insertionSort,
        List.orderedInsert, List.range_succ])
    (by
      rw [savgol_filter]
      simp [savgol_core, savgolLo, savgolHi, List.range_succ]
      exact ⟨⟨1, by omega, rfl⟩, ⟨1, by omega, rfl⟩, ⟨0, by omega, rfl⟩⟩)

/-!  ## Interpolation: time-unit invariance -/

theorem maskCount_congr (n : ℕ) (a b : ℕ → Bool)
    (h : ∀ i, i < n → a i = b i) : maskCount n a = maskCount n b := by
  rw [maskCount, maskCount]
  congr 1
  apply Finset.filter_congr
  intro i hi
  rw [Finset.mem_range] at hi
  rw [h i hi]

theorem prevSome_le (xs : List (Option ℚ)) : ∀ i p, prevSome xs i = some p → p ≤ i := by
  intro i
  induction i with
  | zero =>
    intro p hp
    rw [prevSome] at hp
    split at hp
    · cases hp; exact Nat.le_refl 0
    · cases hp
  | succ i ih =>
    intro p hp
    rw [prevSome] at hp
    split at hp
    · cases hp; exact Nat.le_refl _
    · exact Nat.le_trans (ih p hp) (by omega)

theorem nextSomeAux_bounds (xs : List (Option ℚ)) :
    ∀ fuel i q, nextSomeAux xs fuel i = some q → i ≤ q ∧ q < i + fuel := by
  intro fuel
  induction fuel with
  | zero => intro i q hq; cases hq
  | succ fuel ih =>
    intro i q hq
    rw [nextSomeAux] at hq
    split at hq
    · cases hq; omega
    · have := ih (i + 1) q hq
      omega

theorem nextSome_bounds (xs : List (Option ℚ)) (i q : ℕ)
    (hq : nextSome xs i = some q) : i ≤ q ∧ q < xs.length := by
  have := nextSomeAux_bounds xs (xs.length - i) i q hq
  rcases Nat.lt_or_ge i xs.length with h | h
  · omega
  · exfalso
    have hz : xs.length - i = 0 := by omega
    rw [nextSome, hz] at hq
    cases hq

theorem timeAt_scale (c : ℚ) (t : List ℚ) (i : ℕ) :
    timeAt (t.map (fun x => c * x)) i = c * timeAt t i := by
  rw [timeAt, timeAt, List.getD_eq_getElem?_getD, List.getD_eq_getElem?_getD,
    List.getElem?_map]
  cases t[i]? with
  | none => simp
  | some v => simp

theorem timeStep_scale (c : ℚ) (t : List ℚ) (h2 : 2 ≤ t.length) :
    timeStep (t.map (fun x => c * x)) = c * timeStep t := by
  rw [timeStep, timeStep]
  simp only [List.length_map]
  rw [if_pos h2, if_pos h2, timeAt_scale, timeAt_scale]
  ring

theorem fillAllowed_scale (c : ℚ) (hc : 0 < c) (t : List ℚ) (xs : List (Option ℚ))
    (mg : Option ℕ) (i : ℕ) (hlen : t.length = xs.length) (hi : i < xs.length) :
    fillAllowed (t.map (fun x => c * x)) xs mg i = fillAllowed t xs mg i := by
  cases mg with
  | none => rfl
  | some g =>
    rw [fillAllowed, fillAllowed]
    rcases Nat.lt_or_ge t.length 2 with h2 | h2
    · -- degenerate coordinate: both steps default to 1 and all indices are 0
      have hts : timeStep (t.map (fun x => c * x)) = timeStep t := by
        rw [timeStep, timeStep]
        simp only [List.length_map]
        rw [if_neg (by omega), if_neg (by omega)]
      have hi0 : i = 0 := by omega
      cases hp : prevSome xs i with
      | none =>
        cases hq : nextSome xs i with
        | none => rfl
        | some q =>
          have hqb := nextSome_bounds xs i q hq
          have hq0 : q = 0 := by omega
          show decide (timeAt (t.map (fun x => c * x)) q - timeAt (t.map (fun x => c * x)) i ≤
              (g : ℚ) * timeStep (t.map (fun x => c * x))) =
            decide (timeAt t q - timeAt t i ≤ (g : ℚ) * timeStep t)
          rw [hi0, hq0, sub_self, sub_self, hts]
      | some p =>
        have hpl := prevSome_le xs i p hp
        have hp0 : p = 0 := by omega
        cases hq : nextSome xs i with
        | none =>
          show decide (timeAt (t.map (fun x => c * x)) i - timeAt (t.map (fun x => c * x)) p ≤
              (g : ℚ) * timeStep (t.map (fun x => c * x))) =
            decide (timeAt t i - timeAt t p ≤ (g : ℚ) * timeStep t)
          rw [hi0, hp0, sub_self, sub_self, hts]
        | some q =>
          have hqb := nextSome_bounds xs i q hq
          have hq0 : q = 0 := by omega
          show decide (timeAt (t.map (fun x => c * x)) q - timeAt (t.map (fun x => c * x)) p ≤
              ((g : ℚ) + 1) * timeStep (t.map (fun x => c * x))) =
            decide (timeAt t q - timeAt t p ≤ ((g : ℚ) + 1) * timeStep t)
          rw [hp0, hq0, sub_self, sub_self, hts]
    · have hstep := timeStep_scale c t h2
      cases hp : prevSome xs i with
      | none =>
        cases hq : nextSome xs i with
        | none => rfl
        | some q =>
          show decide (timeAt (t.map (fun x => c * x)) q - timeAt (t.map (fun x => c * x)) i ≤
              (g : ℚ) * timeStep (t.map (fun x => c * x))) =
            decide (timeAt t q - timeAt t i ≤ (g : ℚ) * timeStep t)
          rw [timeAt_scale, timeAt_scale, hstep, decide_eq_decide]
          have e1 : c * timeAt t q - c * timeAt t i = c * (timeAt t q - timeAt t i) := by ring
          have e2 : (g : ℚ) * (c * timeStep t) = c * ((g : ℚ) * timeStep t) := by ring
          rw [e1, e2]
          exact mul_le_mul_left hc
      | some p =>
        cases hq : nextSome xs i with
        | none =>
          show decide (timeAt (t.map (fun x => c * x)) i - timeAt (t.map (fun x => c * x)) p ≤
              (g : ℚ) * timeStep (t.map (fun x => c * x))) =
            decide (timeAt t i - timeAt t p ≤ (g : ℚ) * timeStep t)
          rw [timeAt_scale, timeAt_scale, hstep, decide_eq_decide]
          have e1 : c * timeAt t i - c * timeAt t p = c * (timeAt t i - timeAt t p) := by ring
          have e2 : (g : ℚ) * (c * timeStep t) = c * ((g : ℚ) * timeStep t) := by ring
          rw [e1, e2]
          exact mul_le_mul_left hc
        | some q =>
          show decide (timeAt (t.map (fun x => c * x)) q - timeAt (t.map (fun x => c * x)) p ≤
              ((g : ℚ) + 1) * timeStep (t.map (fun x => c * x))) =
            decide (timeAt t q - timeAt t p ≤ ((g : ℚ) + 1) * timeStep t)
          rw [timeAt_scale, timeAt_scale, hstep, decide_eq_decide]
          have e1 : c * timeAt t q - c * timeAt t p = c * (timeAt t q - timeAt t p) := by ring
          have e2 : ((g : ℚ) + 1) * (c * timeStep t) = c * (((g : ℚ) + 1) * timeStep t) := by ring
          rw [e1, e2]
          exact mul_le_mul_left hc

theorem interpCore_scale_pointwise (c : ℚ) (hc : 0 < c) (method : String)
    (t : List ℚ) (xs : List (Option ℚ)) (mg : Option ℕ) (fv : Option ℚ)
    (hlen : t.length = xs.length) (i : ℕ) (hi : i < xs.length) :
    ((interpCore method (t.map (fun x => c * x)) xs mg fv).getD i none).isNone =
      ((interpCore method t xs mg fv).getD i none).isNone := by
  rw [interpCore, interpCore, getD_map_range _ _ _ _ hi, getD_map_range _ _ _ _ hi]
  cases hx : xs.getD i none with
  | some v => rfl
  | none =>
    simp only []
    rw [fillAllowed_scale c hc t xs mg i hlen hi]
    by_cases hfa : fillAllowed t xs mg i = true
    · rw [if_pos hfa, if_pos hfa]
      by_cases hm1 : method = "linear"
      · rw [if_pos hm1, if_pos hm1]
        cases prevSome xs i with
        | none => cases nextSome xs i <;> rfl
        | some p => cases nextSome xs i <;> rfl
      · rw [if_neg hm1, if_neg hm1]
        by_cases hm2 : method = "nearest"
        · rw [if_pos hm2, if_pos hm2]
          cases prevSome xs i with
          | none => cases nextSome xs i <;> rfl
          | some p => cases nextSome xs i <;> rfl
        · rw [if_neg hm2, if_neg hm2]
          by_cases hm3 : method = "ffill"
          · rw [if_pos hm3, if_pos hm3]
          · rw [if_neg hm3, if_neg hm3]
            by_cases hm4 : method = "bfill"
            · rw [if_pos hm4, if_pos hm4]
            · rw [if_neg hm4, if_neg hm4]
              by_cases hm5 : method = "constant"
              · rw [if_pos hm5, if_pos hm5]
              · rw [if_neg hm5, if_neg hm5]
                cases prevSome xs i with
                | none => cases nextSome xs i <;> rfl
                | some p => cases nextSome xs i <;> rfl
    · rw [if_neg hfa, if_neg hfa]

theorem timeAt_telescope (t : List ℚ) (step : ℚ)
    (huni : ∀ k, k + 1 < t.length → timeAt t (k + 1) - timeAt t k = step) :
    ∀ a b, a ≤ b → b < t.length → timeAt t b - timeAt t a = ((b - a : ℕ) : ℚ) * step := by
  intro a b
  induction b with
  | zero =>
    intro hab hb
    have ha : a = 0 := by omega
    rw [ha]
    simp
  | succ b ih =>
    intro hab hb
    rcases Nat.eq_or_lt_of_le hab with h | h
    · rw [h]
      simp
    · have hab2 : a ≤ b := by omega
      have hb2 : b < t.length := by omega
      have h1 := huni b hb
      have h2 := ih hab2 hb2
      have hcast : ((b + 1 - a : ℕ) : ℚ) = ((b - a : ℕ) : ℚ) + 1 := by
        have he : (b + 1 - a : ℕ) = (b - a : ℕ) + 1 := by omega
        rw [he]
        push_cast
        ring
      rw [hcast]
      have hsplit : timeAt t (b + 1) - timeAt t a =
          (timeAt t (b + 1) - timeAt t b) + (timeAt t b - timeAt t a) := by ring
      rw [hsplit, h1, h2]
      ring

theorem interpCore_linear_long_gap (t : List ℚ) (xs : List (Option ℚ)) (g : ℕ)
    (fv : Option ℚ) (step : ℚ) (hstep : 0 < step)
    (huni : ∀ k, k + 1 < t.length → timeAt t (k + 1) - timeAt t k = step)
    (hlen : t.length = xs.length) (i p q : ℕ) (hi : i < xs.length)
    (hx : xs.getD i none = none) (hp : prevSome xs i = some p)
    (hq : nextSome xs i = some q) (hgap : g + 1 < q - p) :
    (interpCore "linear" t xs (some g) fv).getD i none = none := by
  rw [interpCore, getD_map_range _ _ _ _ hi, hx]
  simp only []
  have hple : p ≤ i := prevSome_le xs i p hp
  have hqb := nextSome_bounds xs i q hq
  have hfa : fillAllowed t xs (some g) i = false := by
    rw [fillAllowed, hp, hq]
    show decide (timeAt t q - timeAt t p ≤ ((g : ℚ) + 1) * timeStep t) = false
    have hq_len : q < t.length := by omega
    have htele : timeAt t q - timeAt t p = ((q - p : ℕ) : ℚ) * step :=
      timeAt_telescope t step huni p q (by omega) hq_len
    have hts : timeStep t = step := by
      rw [timeStep, if_pos (by omega)]
      exact huni 0 (by omega)
    rw [decide_eq_false_iff_not, htele, hts]
    intro hle
    have hcast : ((g : ℚ) + 1) < ((q - p : ℕ) : ℚ) := by
      have hnat : g + 1 < q - p := hgap
      exact_mod_cast hnat
    have hmul := mul_lt_mul_of_pos_right hcast hstep
    linarith
  rw [if_neg (by rw [hfa]; exact Bool.false_ne_true)]

/-- C1: for linear interpolation with a `max_gap` bound, the number of
remaining NaNs is invariant under rescaling the time coordinate by any
positive factor (frames versus scaled seconds, same gap structure); and on a
uniformly spaced time coordinate, a missing sample whose enclosing valid
neighbours are more than `max_gap + 1` samples apart (a run longer than
`max_gap`) is left as NaN. -/
theorem C1_interpolate_time_unit_invariance (t : List ℚ) (xs : List (Option ℚ))
    (c : ℚ) (g : ℕ) (fv : Option ℚ) (hc : 0 < c) (hlen : t.length = xs.length) :
    countNone (exceptVals (interpolate_over_time ⟨t.map (fun x => c * x), xs⟩
        "linear" (some g) fv false)) =
      countNone (exceptVals (interpolate_over_time ⟨t, xs⟩
        "linear" (some g) fv false)) ∧
    (∀ step i p q, 0 < step →
      (∀ k ∈ Finset.range t.length, k + 1 < t.length →
        timeAt t (k + 1) - timeAt t k = step) →
      i < xs.length → xs.getD i none = none →
      prevSome xs i = some p → nextSome xs i = some q → g + 1 < q - p →
      (exceptVals (interpolate_over_time ⟨t, xs⟩
        "linear" (some g) fv false)).getD i none = none) := by
  have hok : ∀ (tt : List ℚ), interpolate_over_time ⟨tt, xs⟩ "linear" (some g) fv false =
      .ok ⟨tt, interpCore "linear" tt xs (some g) fv⟩ := by
    intro tt
    rw [interpolate_over_time]
    simp [validMethods]
  constructor
  · rw [hok, hok]
    show countNone (interpCore "linear" (t.map (fun x => c * x)) xs (some g) fv) =
      countNone (interpCore "linear" t xs (some g) fv)
    rw [countNone, countNone, interpCore_length, interpCore_length]
    apply maskCount_congr
    intro i hi
    exact interpCore_scale_pointwise c hc "linear" t xs (some g) fv hlen i hi
  · intro step i p q hstep huni hi hx hp hq hgap
    rw [hok]
    show (interpCore "linear" t xs (some g) fv).getD i none = none
    exact interpCore_linear_long_gap t xs g fv step hstep
      (fun k hk => huni k (Finset.mem_range.mpr (by omega)) hk) hlen i p q hi hx hp hq hgap

/-- C1 witness: the invariance and the long-run preservation instantiated on
`[1, NaN, NaN, NaN, 4]` with frame coordinates `[0, …, 4]`, scale factor `10`
and `max_gap = 1`. -/
theorem C1_witness :
    (countNone (exceptVals (interpolate_over_time
        ⟨([0, 1, 2, 3, 4] : List ℚ).map (fun x => 10 * x),
          [some 1, none, none, none, some 4]⟩ "linear" (some 1) none false)) =
      countNone (exceptVals (interpolate_over_time
        ⟨[0, 1, 2, 3, 4], [some 1, none, none, none, some 4]⟩
        "linear" (some 1) none false))) ∧
    (exceptVals (interpolate_over_time
        ⟨[0, 1, 2, 3, 4], [some 1, none, none, none, some 4]⟩
        "linear" (some 1) none false)).getD 2 none = none := by
  have h := C1_interpolate_time_unit_invariance [0, 1, 2, 3, 4]
    [some 1, none, none, none, some 4] 10 1 none (by norm_num) (by simp)
  refine ⟨h.1, ?_⟩
  apply h.2 1 2 0 4
  · norm_num
  · intro k hk hklt
    have hk4 : k < 4 := by
      have : k + 1 < 5 := by simpa using hklt
      omega
    interval_cases k <;>
      norm_num [timeAt, List.getD_cons_succ, List.getD_cons_zero]
  · decide
  · decide
  · decide
  · decide
  · decide

/-- C3: `filter_by_confidence` sets all spatial components of exactly the
points with confidence strictly below the threshold to NaN, returns every
point at or above the threshold unchanged, and keeps the time coordinates. -/
theorem C3_filter_by_confidence_exact (pos : PosArray) (conf : List ℚ)
    (thr : ℚ) (pr : Bool) (i : ℕ) (hi : i < pos.pts.length) :
    (conf.getD i 0 < thr →
      ∀ x ∈ (filter_by_confidence pos conf thr pr).pts.getD i [], x = none) ∧
    (thr ≤ conf.getD i 0 →
      (filter_by_confidence pos conf thr pr).pts.getD i [] = pos.pts.getD i []) ∧
    (filter_by_confidence pos conf thr pr).time = pos.time := by
  have hg : (filter_by_confidence pos conf thr pr).pts.getD i [] =
      (if conf.getD i 0 < thr then (pos.pts.getD i []).map (fun _ => (none : Option ℚ))
       else pos.pts.getD i []) := by
    rw [filter_by_confidence]
    exact getD_map_range _ _ _ _ hi
  refine ⟨?_, ?_, rfl⟩
  · intro hlt x hx
    rw [hg, if_pos hlt] at hx
    rw [List.mem_map] at hx
    obtain ⟨y, -, h⟩ := hx
    exact h.symm
  · intro hge
    rw [hg, if_neg (not_lt.mpr hge)]

/-- C3 witness: a point with confidence `1/2 < 6/10` is fully masked and a
point with confidence `7/10 ≥ 6/10` is returned unchanged. -/
theorem C3_witness :
    (filter_by_confidence ⟨[0], [[some 1, some 2]]⟩ [7 / 10] (6 / 10) false).pts.getD 0 []
      = [some 1, some 2] ∧
    (filter_by_confidence ⟨[0], [[some 1, some 2]]⟩ [7 / 10] (6 / 10) false).time = [0] ∧
    ((some (5 : ℚ)) ∈
        (filter_by_confidence ⟨[0], [[some 1, some 2]]⟩ [1 / 2] (6 / 10) false).pts.getD 0 []
      → False) := by
  have hhi := C3_filter_by_confidence_exact ⟨[0], [[some 1, some 2]]⟩ [7 / 10]
    (6 / 10) false 0 (by decide)
  have hlo := C3_filter_by_confidence_exact ⟨[0], [[some 1, some 2]]⟩ [1 / 2]
    (6 / 10) false 0 (by decide)
  refine ⟨?_, hhi.2.2, ?_⟩
  · have := hhi.2.1 (by rw [List.getD_cons_zero]; norm_num)
    rw [this]
    rfl
  · intro hmem
    have := hlo.1 (by rw [List.getD_cons_zero]; norm_num) (some 5) hmem
    cases this

/-- C4: `median_filter` emits a deprecation warning of category
`DeprecationWarning` naming `rolling_filter` as the replacement, and its
returned array is identical to `rolling_filter` on the same arguments with
`statistic = "median"`. -/
theorem C4_median_filter_forwards (ts : TSeries) (w : ℕ) (mp : Option ℕ) (pr : Bool) :
    (median_filter ts w mp pr).2 = rolling_filter ts w "median" mp pr ∧
    (median_filter ts w mp pr).1.category = "DeprecationWarning" ∧
    (median_filter ts w mp pr).1.deprecatedName = "median_filter" ∧
    (median_filter ts w mp pr).1.replacement = "rolling_filter" :=
  ⟨rfl, rfl, rfl, rfl⟩

/-- C5: on the series `[1, NaN, NaN, 4]`, `interpolate_over_time` returns
`[1, 1, 1, 4]` with `method="ffill"`, `[1, 4, 4, 4]` with `method="bfill"`,
`[1, 1, 4, 4]` with `method="nearest"`, and `[1, 99, 99, 4]` with
`method="constant"` and `fill_value=99`. -/
theorem C5_interpolate_methods_example :
    interpolate_over_time ⟨[0, 1, 2, 3], [some 1, none, none, some 4]⟩
      "ffill" none none false
      = .ok ⟨[0, 1, 2, 3], [some 1, some 1, some 1, some 4]⟩ ∧
    interpolate_over_time ⟨[0, 1, 2, 3], [some 1, none, none, some 4]⟩
      "bfill" none none false
      = .ok ⟨[0, 1, 2, 3], [some 1, some 4, some 4, some 4]⟩ ∧
    interpolate_over_time ⟨[0, 1, 2, 3], [some 1, none, none, some 4]⟩
      "nearest" none none false
      = .ok ⟨[0, 1, 2, 3], [some 1, some 1, some 4, some 4]⟩ ∧
    interpolate_over_time ⟨[0, 1, 2, 3], [some 1, none, none, some 4]⟩
      "constant" none (some 99) false
      = .ok ⟨[0, 1, 2, 3], [some 1, some 99, some 99, some 4]⟩ := by
  refine ⟨?_, ?_, ?_, ?_⟩ <;>
  · rw [interpolate_over_time]
    simp [validMethods, interpCore, fillAllowed, prevSome, nextSome, nextSomeAux,
      timeAt, timeStep, valAt, List.range_succ]
    try norm_num

/-- C6: exactly the listed argument combinations fail with an
invalid-argument error: a rolling statistic outside
`{"mean","median","max","min"}` (the error carries the offending value), an
unknown interpolation method — one that is neither a named fill nor a
standard kind delegated to the generic 1-D interpolation routine —,
`method="constant"` without a `fill_value`, and a caller-supplied `axis`
override for the smoothing filter; every other listed combination succeeds,
including the delegated standard kinds such as `"cubic"`. -/
theorem C6_invalid_argument_errors (ts : TSeries) (w po : ℕ) (mp : Option ℕ)
    (pr : Bool) (s m : String) (mg : Option ℕ) (fv : ℚ) (ax : ℤ)
    (hs : s ∉ validStatistics) (hm : m ∉ validMethods) :
    rolling_filter ts w s mp pr = .error (.invalidStatistic s) ∧
    exceptOk (rolling_filter ts w "mean" mp pr) = true ∧
    exceptOk (rolling_filter ts w "median" mp pr) = true ∧
    exceptOk (rolling_filter ts w "max" mp pr) = true ∧
    exceptOk (rolling_filter ts w "min" mp pr) = true ∧
    interpolate_over_time ts m mg (some fv) pr = .error (.invalidMethod m) ∧
    interpolate_over_time ts "constant" mg none pr = .error .missingFillValue ∧
    exceptOk (interpolate_over_time ts "linear" mg none pr) = true ∧
    exceptOk (interpolate_over_time ts "nearest" mg none pr) = true ∧
    exceptOk (interpolate_over_time ts "ffill" mg none pr) = true ∧
    exceptOk (interpolate_over_time ts "bfill" mg none pr) = true ∧
    exceptOk (interpolate_over_time ts "constant" mg (some fv) pr) = true ∧
    exceptOk (interpolate_over_time ts "cubic" mg none pr) = true ∧
    savgol_filter ts w po "interp" (some ax) pr = .error .axisOverride ∧
    exceptOk (savgol_filter ts w po "interp" none pr) = true := by
  refine ⟨?_, ?_, ?_, ?_, ?_, ?_, ?_, ?_, ?_, ?_, ?_, ?_, ?_, ?_, ?_⟩
  · rw [rolling_filter, if_neg hs]
  · rw [rolling_filter]; simp [validStatistics, exceptOk]
  · rw [rolling_filter]; simp [validStatistics, exceptOk]
  · rw [rolling_filter]; simp [validStatistics, exceptOk]
  · rw [rolling_filter]; simp [validStatistics, exceptOk]
  · rw [interpolate_over_time, if_pos hm]
  · rw [interpolate_over_time]; simp [validMethods]
  · rw [interpolate_over_time]; simp [validMethods, exceptOk]
  · rw [interpolate_over_time]; simp [validMethods, exceptOk]
  · rw [interpolate_over_time]; simp [validMethods, exceptOk]
  · rw [interpolate_over_time]; simp [validMethods, exceptOk]
  · rw [interpolate_over_time]; simp [validMethods, exceptOk]
  · rw [interpolate_over_time]; simp [validMethods, delegatedMethods, exceptOk]
  · rw [savgol_filter]; simp
  · rw [savgol_filter]; simp [exceptOk]

/-- C6 witness: the error and success cases instantiated at concrete
arguments, with the invalid names `"invalid"` and `"invalid_method"`. -/
theorem C6_witness :
    rolling_filter ⟨[0], [some 1]⟩ 3 "invalid" none false
      = .error (.invalidStatistic "invalid") ∧
    exceptOk (rolling_filter ⟨[0], [some 1]⟩ 3 "mean" none false) = true ∧
    exceptOk (rolling_filter ⟨[0], [some 1]⟩ 3 "median" none false) = true ∧
    exceptOk (rolling_filter ⟨[0], [some 1]⟩ 3 "max" none false) = true ∧
    exceptOk (rolling_filter ⟨[0], [some 1]⟩ 3 "min" none false) = true ∧
    interpolate_over_time ⟨[0], [some 1]⟩ "invalid_method" none (some 99) false
      = .error (.invalidMethod "invalid_method") ∧
    interpolate_over_time ⟨[0], [some 1]⟩ "constant" none none false
      = .error .missingFillValue ∧
    exceptOk (interpolate_over_time ⟨[0], [some 1]⟩ "linear" none none false) = true ∧
    exceptOk (interpolate_over_time ⟨[0], [some 1]⟩ "nearest" none none false) = true ∧
    exceptOk (interpolate_over_time ⟨[0], [some 1]⟩ "ffill" none none false) = true ∧
    exceptOk (interpolate_over_time ⟨[0], [some 1]⟩ "bfill" none none false) = true ∧
    exceptOk (interpolate_over_time ⟨[0], [some 1]⟩ "constant" none (some 99) false)
      = true ∧
    exceptOk (interpolate_over_time ⟨[0], [some 1]⟩ "cubic" none none false) = true ∧
    savgol_filter ⟨[0], [some 1]⟩ 3 2 "interp" (some 1) false
      = .error .axisOverride ∧
    exceptOk (savgol_filter ⟨[0], [some 1]⟩ 3 2 "interp" none false) = true :=
  C6_invalid_argument_errors ⟨[0], [some 1]⟩ 3 2 none false "invalid"
    "invalid_method" none 99 1 (by decide) (by decide)

/-- C7: every operation returns a new array of the same shape with the same
time coordinates: `rolling_filter`, `savgol_filter` and
`interpolate_over_time` preserve the time axis and the number of samples, and
`filter_by_confidence` preserves the time axis, the number of samples and the
number of spatial components of every sample (the embedding is purely
functional, so the caller's arrays are never mutated). -/
theorem C7_shape_and_labels_preserved (ts : TSeries) (pos : PosArray)
    (conf : List ℚ) (thr : ℚ) (w po : ℕ) (s : String) (mp : Option ℕ)
    (mode method : String) (mg : Option ℕ) (fv : Option ℚ) (pr : Bool)
    (r1 r2 r3 : TSeries)
    (h1 : rolling_filter ts w s mp pr = .ok r1)
    (h2 : savgol_filter ts w po mode none pr = .ok r2)
    (h3 : interpolate_over_time ts method mg fv pr = .ok r3) :
    r1.time = ts.time ∧ r1.vals.length = ts.vals.length ∧
    r2.time = ts.time ∧ r2.vals.length = ts.vals.length ∧
    r3.time = ts.time ∧ r3.vals.length = ts.vals.length ∧
    (filter_by_confidence pos conf thr pr).time = pos.time ∧
    (filter_by_confidence pos conf thr pr).pts.length = pos.pts.length ∧
    (∀ i, i < pos.pts.length →
      ((filter_by_confidence pos conf thr pr).pts.getD i []).length =
        (pos.pts.getD i []).length) := by
  obtain ⟨ht1, hv1⟩ := rolling_filter_ok _ _ _ _ _ _ h1
  obtain ⟨ht2, hv2⟩ := savgol_filter_ok _ _ _ _ _ _ _ h2
  obtain ⟨ht3, hv3⟩ := interpolate_over_time_ok _ _ _ _ _ _ h3
  refine ⟨ht1, ?_, ht2, ?_, ht3, ?_, rfl, ?_, ?_⟩
  · rw [hv1, rolling_filter_core_length]
  · rw [hv2, savgol_core_length]
  · rw [hv3, interpCore_length]
  · rw [filter_by_confidence]; simp
  · intro i hi
    have hg : (filter_by_confidence pos conf thr pr).pts.getD i [] =
        (if conf.getD i 0 < thr
         then (pos.pts.getD i []).map (fun _ => (none : Option ℚ))
         else pos.pts.getD i []) := by
      rw [filter_by_confidence]
      exact getD_map_range _ _ _ _ hi
    rw [hg]
    split
    · rw [List.length_map]
    · rfl

/-- C7 witness: shape preservation instantiated on a one-sample series. -/
theorem C7_witness :
    ([0] : List ℚ) = [0] ∧ ([(none : Option ℚ)] : List (Option ℚ)).length = 1 ∧
    ((filter_by_confidence ⟨[0], [[some 1]]⟩ [1] (6 / 10) false).pts.getD 0 []).length
      = ([[some (1 : ℚ)]].getD 0 []).length := by
  have h := C7_shape_and_labels_preserved ⟨[0], [none]⟩ ⟨[0], [[some 1]]⟩ [1]
    (6 / 10) 1 0 "median" none "interp" "ffill" none none false
    ⟨[0], [none]⟩ ⟨[0], [none]⟩ ⟨[0], [none]⟩
    (by decide) (by decide) (by decide)
  exact ⟨h.1, h.2.1, h.2.2.2.2.2.2.2.2 0 (by decide)⟩

theorem roundHalfEven_close (q : ℚ) : |q - (roundHalfEven q : ℚ)| ≤ 1 / 2 := by
  simp only [roundHalfEven]
  have hfl := Int.floor_le q
  have hfu := Int.lt_floor_add_one q
  split_ifs with h1 h2 h3 <;>
  · push_cast
    rw [abs_le]
    constructor <;> linarith

theorem pyRound1_close (q : ℚ) : |pyRound1 q - q| ≤ 1 / 20 := by
  rw [pyRound1]
  have h := roundHalfEven_close (10 * q)
  rw [abs_le] at h ⊢
  obtain ⟨ha, hb⟩ := h
  constructor <;> linarith

theorem calculate_nan_stats_percent (data : NanDataArray) (kp ind : Option String) :
    (calculate_nan_stats data kp ind).percent =
      (if data.nTime ≠ 0 then
        pyRound1 (((calculate_nan_stats data kp ind).nNans : ℚ) / (data.nTime : ℚ) * 100)
       else 0) := rfl

/-- C8: `calculate_nan_stats` reports `0` percent instead of dividing by zero
when the time axis is empty (and is total, never raising), and otherwise
reports the percentage rounded to one decimal place: the reported value is an
integer number of tenths within `1/20` of the exact percentage. -/
theorem C8_nan_stats_percent (data : NanDataArray) (kp ind : Option String) :
    ((calculate_nan_stats data kp ind).nPoints = 0 →
      (calculate_nan_stats data kp ind).percent = 0) ∧
    ((calculate_nan_stats data kp ind).nPoints ≠ 0 →
      ∃ z : ℤ, (calculate_nan_stats data kp ind).percent = (z : ℚ) / 10 ∧
        |(calculate_nan_stats data kp ind).percent -
          ((calculate_nan_stats data kp ind).nNans : ℚ) /
            ((calculate_nan_stats data kp ind).nPoints : ℚ) * 100| ≤ 1 / 20) := by
  have hp : (calculate_nan_stats data kp ind).nPoints = data.nTime := rfl
  constructor
  · intro h0
    rw [calculate_nan_stats_percent, if_neg (by rw [← hp]; simpa using h0)]
  · intro hne
    rw [calculate_nan_stats_percent, if_pos (by rw [← hp]; exact hne)]
    refine ⟨roundHalfEven (10 * (((calculate_nan_stats data kp ind).nNans : ℚ) /
      (data.nTime : ℚ) * 100)), rfl, ?_⟩
    rw [hp]
    exact pyRound1_close _

/-- C8 witness: the zero-guard on an empty time axis and the rounding bound
on a `1`-of-`3` NaN count (`33.3` percent). -/
theorem C8_witness :
    (calculate_nan_stats ⟨none, none, false, 0, 0, fun _ _ _ _ => true⟩
      none none).percent = 0 ∧
    (∃ z : ℤ, (calculate_nan_stats
        ⟨none, none, false, 0, 3, fun _ _ t _ => t = 0⟩ none none).percent
        = (z : ℚ) / 10 ∧
      |(calculate_nan_stats ⟨none, none, false, 0, 3, fun _ _ t _ => t = 0⟩
          none none).percent -
        ((calculate_nan_stats ⟨none, none, false, 0, 3, fun _ _ t _ => t = 0⟩
            none none).nNans : ℚ) /
          ((calculate_nan_stats ⟨none, none, false, 0, 3, fun _ _ t _ => t = 0⟩
              none none).nPoints : ℚ) * 100| ≤ 1 / 20) := by
  constructor
  · exact (C8_nan_stats_percent ⟨none, none, false, 0, 0, fun _ _ _ _ => true⟩
      none none).1 (by decide)
  · exact (C8_nan_stats_percent ⟨none, none, false, 0, 3, fun _ _ t _ => t = 0⟩
      none none).2 (by decide)

/-- C9 counterexample: when the array has no `keypoints` axis but an explicit
keypoint name is passed, the label is `"data"`, not the explicit name, so the
claimed precedence "explicit keypoint name whenever one is given" fails. -/
theorem C9_counterexample :
    (calculate_nan_stats ⟨none, none, false, 0, 3, fun _ _ _ _ => false⟩
      (some "nose") none).label = "data" ∧
    (calculate_nan_stats ⟨none, none, false, 0, 3, fun _ _ _ _ => false⟩
      (some "nose") none).label ≠ "nose" := by
  constructor
  · decide
  · decide

/-- C9 (amended): the label is the explicit keypoint name only when one is
given, it is non-empty (Python truthiness), and the array has a `keypoints`
axis; otherwise it is `"all_keypoints"` whenever a `keypoints` axis exists,
and `"data"` when it does not. -/
theorem C9_label_precedence_amended (data : NanDataArray) (kp ind : Option String) :
    (∀ names nm, data.keypoints = some names → kp = some nm → nm ≠ "" →
      (calculate_nan_stats data kp ind).label = nm) ∧
    (∀ names, data.keypoints = some names → (kp = none ∨ kp = some "") →
      (calculate_nan_stats data kp ind).label = "all_keypoints") ∧
    (data.keypoints = none → (calculate_nan_stats data kp ind).label = "data") := by
  have hl : (calculate_nan_stats data kp ind).label =
      (match data.keypoints, kp with
       | some _, some nm => if nm = "" then "all_keypoints" else nm
       | some _, none => "all_keypoints"
       | none, _ => "data") := rfl
  refine ⟨?_, ?_, ?_⟩
  · intro names nm hk hkp hne
    rw [hl, hk, hkp]
    simp only []
    rw [if_neg hne]
  · intro names hk hcase
    rcases hcase with h | h
    · rw [hl, hk, h]
    · rw [hl, hk, h]
      simp
  · intro hk
    rw [hl, hk]

/-- C9 witness: the amended precedence instantiated on an array with a
`keypoints` axis and the explicit keypoint `"nose"`, and on an axis-less
array. -/
theorem C9_witness :
    (calculate_nan_stats ⟨none, some ["nose", "tail"], false, 0, 3,
      fun _ _ _ _ => false⟩ (some "nose") none).label = "nose" ∧
    (calculate_nan_stats ⟨none, some ["nose", "tail"], false, 0, 3,
      fun _ _ _ _ => false⟩ none none).label = "all_keypoints" ∧
    (calculate_nan_stats ⟨none, none, false, 0, 3,
      fun _ _ _ _ => false⟩ none none).label = "data" := by
  refine ⟨?_, ?_, ?_⟩
  · exact (C9_label_precedence_amended ⟨none, some ["nose", "tail"], false, 0, 3,
      fun _ _ _ _ => false⟩ (some "nose") none).1 ["nose", "tail"] "nose"
      rfl rfl (by decide)
  · exact (C9_label_precedence_amended ⟨none, some ["nose", "tail"], false, 0, 3,
      fun _ _ _ _ => false⟩ none none).2.1 ["nose", "tail"] rfl (Or.inl rfl)
  · exact (C9_label_precedence_amended ⟨none, none, false, 0, 3,
      fun _ _ _ _ => false⟩ none none).2.2 rfl

/-- C10: in `calculate_nan_stats` the NaN count sums the missing-point mask
over all remaining dimensions while the total is the size of the time axis
alone, so an all-NaN array with two keypoints and no explicit keypoint
reports `10/5`, a NaN count above the total and a percentage above 100. -/
theorem C10_nan_count_exceeds_total :
    (calculate_nan_stats ⟨none, some ["a", "b"], false, 0, 5, fun _ _ _ _ => true⟩
      none none).nNans = 10 ∧
    (calculate_nan_stats ⟨none, some ["a", "b"], false, 0, 5, fun _ _ _ _ => true⟩
      none none).nPoints = 5 ∧
    (calculate_nan_stats ⟨none, some ["a", "b"], false, 0, 5, fun _ _ _ _ => true⟩
      none none).nPoints <
      (calculate_nan_stats ⟨none, some ["a", "b"], false, 0, 5, fun _ _ _ _ => true⟩
        none none).nNans ∧
    (calculate_nan_stats ⟨none, some ["a", "b"], false, 0, 5, fun _ _ _ _ => true⟩
      none none).percent = 200 ∧
    (100 : ℚ) <
      (calculate_nan_stats ⟨none, some ["a", "b"], false, 0, 5, fun _ _ _ _ => true⟩
        none none).percent := by
  refine ⟨by decide, by decide, by decide, ?_, ?_⟩
  · simp [calculate_nan_stats, selIndices, pointIsNan, pyRound1, roundHalfEven,
      List.range_succ]
    norm_num
  · have h : (calculate_nan_stats ⟨none, some ["a", "b"], false, 0, 5,
        fun _ _ _ _ => true⟩ none none).percent = 200 := by
      simp [calculate_nan_stats, selIndices, pointIsNan, pyRound1, roundHalfEven,
        List.range_succ]
      norm_num
    rw [h]
    norm_num
